import Mathlib

/-!
Shallow embedding of the yapg password generator (Rust crate, files
src/charsets.rs and src/lib.rs), together with theorems settling the
specification claims about it.

Randomness is modelled by passing an explicit stream of draws
(a function from the draw index to a natural number); a Rust panic
(an unwrap of a None) is modelled by the value none.
-/

namespace Yapg

/-- Characters of the static CHARSET_ALPHA_LOWER from src/charsets.rs. -/
def CHARSET_ALPHA_LOWER : List Char :=
  ['a', 'b', 'c', 'd', 'e', 'f', 'g', 'h', 'i', 'j', 'k', 'l', 'm', 'n', 'o',
   'p', 'q', 'r', 's', 't', 'u', 'v', 'w', 'x', 'y', 'z']

/-- Characters of the static CHARSET_ALPHA_UPPER from src/charsets.rs. -/
def CHARSET_ALPHA_UPPER : List Char :=
  ['A', 'B', 'C', 'D', 'E', 'F', 'G', 'H', 'I', 'J', 'K', 'L', 'M', 'N', 'O',
   'P', 'Q', 'R', 'S', 'T', 'U', 'V', 'W', 'X', 'Y', 'Z']

/-- Characters of the static CHARSET_NUMERIC from src/charsets.rs. -/
def CHARSET_NUMERIC : List Char :=
  ['0', '1', '2', '3', '4', '5', '6', '7', '8', '9']

/-- Characters of the static CHARSET_PROSE from src/charsets.rs.
The last two entries are the apostrophe (code point 39) and the double
quote (code point 34), written via Char.ofNat. -/
def CHARSET_PROSE : List Char :=
  ['.', ':', ',', ';', '!', '?', ' ', Char.ofNat 39, Char.ofNat 34]

/-- Characters of the static CHARSET_MATHOPS from src/charsets.rs. -/
def CHARSET_MATHOPS : List Char :=
  ['+', '-', '*', '/', '=', '<', '>']

/-- Characters of the static CHARSET_DELIM from src/charsets.rs:
the three bracket pairs, braces written via Char.ofNat 123 and 125. -/
def CHARSET_DELIM : List Char :=
  ['(', ')', '[', ']', Char.ofNat 123, Char.ofNat 125]

/-- Characters of the static CHARSET_MISC_SPECIAL from src/charsets.rs.
The backslash is Char.ofNat 92 and the backtick is Char.ofNat 96. -/
def CHARSET_MISC_SPECIAL : List Char :=
  ['#', '@', '$', '%', '&', '|', Char.ofNat 92, '~', '^', '_', Char.ofNat 96]

/-- The enum CharsetName from src/charsets.rs: seven atomic names and two
compound names. -/
inductive CharsetName where
  | AlphaLower
  | AlphaUpper
  | Numeric
  | Mathops
  | Prose
  | Delim
  | MiscSpecial
  | Alpha
  | Special
deriving DecidableEq, Repr

/-- Embedding of the TryFrom char implementation for CharsetName
(src/charsets.rs lines 74 to 97). The Rust error value is an io Error
carrying the offending character in its message; here the error channel
carries that character directly. -/
def tryFromChar (c : Char) : Except Char CharsetName :=
  if c = 'U' then Except.ok CharsetName.AlphaUpper
  else if c = 'L' then Except.ok CharsetName.AlphaLower
  else if c = 'N' then Except.ok CharsetName.Numeric
  else if c = 'M' then Except.ok CharsetName.Mathops
  else if c = 'P' then Except.ok CharsetName.Prose
  else if c = 'D' then Except.ok CharsetName.Delim
  else if c = 'X' then Except.ok CharsetName.MiscSpecial
  else if c = 'A' then Except.ok CharsetName.Alpha
  else if c = 'S' then Except.ok CharsetName.Special
  else Except.error c

/-- The struct CharsetSpec from src/charsets.rs: seven booleans, one per
atomic group, plus the list of individually added characters. -/
structure CharsetSpec where
  alpha_lower : Bool
  alpha_upper : Bool
  numeric : Bool
  mathops : Bool
  prose : Bool
  delim : Bool
  misc_special : Bool
  additions : List Char
deriving DecidableEq, Repr

/-- CharsetSpec.empty: all flags false, no additions. -/
def CharsetSpec.empty : CharsetSpec :=
  { alpha_lower := false, alpha_upper := false, numeric := false,
    mathops := false, prose := false, delim := false, misc_special := false,
    additions := [] }

/-- CharsetSpec.std64: alphanumerics plus hyphen and underscore. -/
def CharsetSpec.std64 : CharsetSpec :=
  { alpha_lower := true, alpha_upper := true, numeric := true,
    mathops := false, prose := false, delim := false, misc_special := false,
    additions := ['-', '_'] }

/-- CharsetSpec.printable_ascii: all seven atomic groups, no additions. -/
def CharsetSpec.printable_ascii : CharsetSpec :=
  { alpha_lower := true, alpha_upper := true, numeric := true,
    mathops := true, prose := true, delim := true, misc_special := true,
    additions := [] }

/-- Embedding of AddAssign of CharsetName for CharsetSpec
(src/charsets.rs lines 262 to 286): atomic names set their flag, the
compound names set the flags of their constituents. -/
def addName (s : CharsetSpec) (name : CharsetName) : CharsetSpec :=
  match name with
  | CharsetName.AlphaLower => { s with alpha_lower := true }
  | CharsetName.AlphaUpper => { s with alpha_upper := true }
  | CharsetName.Numeric => { s with numeric := true }
  | CharsetName.Mathops => { s with mathops := true }
  | CharsetName.Prose => { s with prose := true }
  | CharsetName.Delim => { s with delim := true }
  | CharsetName.MiscSpecial => { s with misc_special := true }
  | CharsetName.Alpha => { s with alpha_lower := true, alpha_upper := true }
  | CharsetName.Special =>
      { s with mathops := true, prose := true, delim := true,
               misc_special := true }

/-- Embedding of SubAssign of CharsetName for CharsetSpec
(src/charsets.rs lines 288 to 312): atomic names clear their flag, the
compound names clear the flags of their constituents. -/
def subName (s : CharsetSpec) (name : CharsetName) : CharsetSpec :=
  match name with
  | CharsetName.AlphaLower => { s with alpha_lower := false }
  | CharsetName.AlphaUpper => { s with alpha_upper := false }
  | CharsetName.Numeric => { s with numeric := false }
  | CharsetName.Mathops => { s with mathops := false }
  | CharsetName.Prose => { s with prose := false }
  | CharsetName.Delim => { s with delim := false }
  | CharsetName.MiscSpecial => { s with misc_special := false }
  | CharsetName.Alpha => { s with alpha_lower := false, alpha_upper := false }
  | CharsetName.Special =>
      { s with mathops := false, prose := false, delim := false,
               misc_special := false }

/-- Embedding of AddAssign of char for CharsetSpec (src/charsets.rs lines
257 to 260): push the character onto the additions list. -/
def addChar (s : CharsetSpec) (c : Char) : CharsetSpec :=
  { s with additions := s.additions ++ [c] }

/-- Embedding of AddAssign of str for CharsetSpec (src/charsets.rs lines
248 to 255): add every character of the string in order. -/
def addStr (s : CharsetSpec) (cs : List Char) : CharsetSpec :=
  cs.foldl addChar s

/-- Loop of the FromStr implementation (src/charsets.rs lines 230 to 241):
resolve each character and add it by name, stopping at the first error. -/
def fromStrAux : CharsetSpec → List Char → Except Char CharsetSpec
  | spec, [] => Except.ok spec
  | spec, c :: rest =>
    match tryFromChar c with
    | Except.error e => Except.error e
    | Except.ok name => fromStrAux (addName spec name) rest

/-- Embedding of the FromStr implementation for CharsetSpec: start from
the empty specification and fold the characters of the input. -/
def fromStr (s : List Char) : Except Char CharsetSpec :=
  fromStrAux CharsetSpec.empty s

/-- The sort step of CharsetSpec.construct: Rust Vec sort, ascending by
code point. Modelled by insertion sort with the Char order. -/
def sortChars (l : List Char) : List Char :=
  List.insertionSort (fun a b => a ≤ b) l

/-- The dedup step of CharsetSpec.construct: Rust Vec dedup removes the
later elements of every run of consecutive equal elements. -/
def dedupConsec : List Char → List Char
  | [] => []
  | a :: rest =>
    match rest with
    | [] => [a]
    | b :: _ => if a = b then dedupConsec rest else a :: dedupConsec rest

/-- Embedding of CharsetSpec.construct (src/charsets.rs lines 135 to 162):
concatenate the selected groups in the fixed source order, append the
additions, sort, then remove consecutive duplicates. -/
def construct (s : CharsetSpec) : List Char :=
  dedupConsec (sortChars (
    (if s.alpha_lower then CHARSET_ALPHA_LOWER else [])
    ++ (if s.alpha_upper then CHARSET_ALPHA_UPPER else [])
    ++ (if s.numeric then CHARSET_NUMERIC else [])
    ++ (if s.mathops then CHARSET_MATHOPS else [])
    ++ (if s.prose then CHARSET_PROSE else [])
    ++ (if s.delim then CHARSET_DELIM else [])
    ++ (if s.misc_special then CHARSET_MISC_SPECIAL else [])
    ++ s.additions))

/-- The struct PasswordGenerator from src/lib.rs, without its RNG field:
the random source is passed explicitly to generate. -/
structure PasswordGenerator where
  charset : List Char
  length : Nat

/-- Embedding of Rng choose from the rand crate as used in generate:
returns none on an empty slice, otherwise an element selected by the
draw (reduced modulo the slice length). -/
def choose (l : List Char) (r : Nat) : Option Char :=
  l[r % l.length]?

/-- Loop of PasswordGenerator.generate: at step i (with n steps left)
draw rand i, choose from the charset and unwrap; a none from choose is
the unwrap panic and aborts the whole computation with none. -/
def generateFrom (charset : List Char) (rand : Nat → Nat) (i : Nat) :
    Nat → Option (List Char)
  | 0 => some []
  | n + 1 =>
    match choose charset (rand i), generateFrom charset rand (i + 1) n with
    | some c, some rest => some (c :: rest)
    | _, _ => none

/-- Embedding of PasswordGenerator.generate (src/lib.rs lines 62 to 68):
push length characters chosen from the charset; the value none models
the panic of the unwrap in the source. -/
def generate (g : PasswordGenerator) (rand : Nat → Nat) :
    Option (List Char) :=
  generateFrom g.charset rand 0 g.length

end Yapg

namespace Yapg

/-- C1: on an empty alphabet and any positive length, generate reaches the
unwrap of the None returned by choose and panics; it does not return an
explicit error value to the caller (its return type has no error channel). -/
theorem generate_empty_alphabet_panics (n : Nat) (rand : Nat → Nat) :
    generate { charset := [], length := n + 1 } rand = none := by
  simp [generate, generateFrom, choose]

/-- C2 counterexample: starting from a state whose alpha_lower flag is
already true, adding the compound Alpha and removing it leaves alpha_lower
false, so the pre-add value of that constituent flag is not restored. -/
theorem compound_add_sub_not_restoring :
    (subName (addName
        { alpha_lower := true, alpha_upper := false, numeric := false,
          mathops := false, prose := false, delim := false,
          misc_special := false, additions := [] }
        CharsetName.Alpha) CharsetName.Alpha).alpha_lower = false ∧
    ({ alpha_lower := true, alpha_upper := false, numeric := false,
       mathops := false, prose := false, delim := false,
       misc_special := false, additions := [] } : CharsetSpec).alpha_lower
      = true := by
  exact ⟨rfl, rfl⟩

/-- C2 amended: adding a compound name and then removing it always leaves
all of that compound's constituent atomic flags false, whatever their
values before the add, and leaves every other field unchanged; hence the
pre-add state is restored exactly when those flags were all false. -/
theorem compound_add_sub_clears (s : CharsetSpec) :
    subName (addName s CharsetName.Alpha) CharsetName.Alpha
      = { s with alpha_lower := false, alpha_upper := false } ∧
    subName (addName s CharsetName.Special) CharsetName.Special
      = { s with mathops := false, prose := false, delim := false,
                 misc_special := false } := by
  cases s
  exact ⟨rfl, rfl⟩

/-- C9: when the configured length is zero, generate returns the empty
password for every alphabet, the empty one included; the failure branch
inside generate is unreachable at length zero. -/
theorem generate_length_zero (g : PasswordGenerator) (rand : Nat → Nat)
    (h : g.length = 0) : generate g rand = some [] := by
  cases g with
  | mk charset length =>
    cases h
    rfl

/-- Witness for C9 at the empty alphabet. -/
theorem generate_length_zero_witness :
    ({ charset := [], length := 0 } : PasswordGenerator).length = 0 ∧
    generate { charset := [], length := 0 } (fun _ => 0) = some [] :=
  ⟨rfl, generate_length_zero { charset := [], length := 0 } (fun _ => 0) rfl⟩

/-- Membership is preserved by the dedup step: every element of the
output already occurs in the input. -/
theorem mem_of_mem_dedupConsec {x : Char} :
    ∀ l : List Char, x ∈ dedupConsec l → x ∈ l := by
  intro l
  induction l with
  | nil => simp [dedupConsec]
  | cons a rest ih =>
    cases rest with
    | nil => simp [dedupConsec]
    | cons b rest2 =>
      by_cases hab : a = b
      · intro hx
        rw [show dedupConsec (a :: b :: rest2) = dedupConsec (b :: rest2) by
          simp [dedupConsec, hab]] at hx
        exact List.mem_cons_of_mem a (ih hx)
      · intro hx
        rw [show dedupConsec (a :: b :: rest2)
              = a :: dedupConsec (b :: rest2) by
          simp [dedupConsec, hab]] at hx
        rcases List.mem_cons.mp hx with h1 | h2
        · exact h1 ▸ List.mem_cons_self a (b :: rest2)
        · exact List.mem_cons_of_mem a (ih h2)

/-- Removing consecutive duplicates from a weakly sorted list yields a
strictly sorted list. -/
theorem sorted_lt_dedupConsec :
    ∀ l : List Char, l.Sorted (fun a b => a ≤ b) →
      (dedupConsec l).Sorted (fun a b => a < b) := by
  intro l
  induction l with
  | nil => intro _; simp [dedupConsec]
  | cons a rest ih =>
    intro hs
    rw [List.sorted_cons] at hs
    obtain ⟨hall, hrest⟩ := hs
    cases rest with
    | nil => simp [dedupConsec]
    | cons b rest2 =>
      by_cases hab : a = b
      · rw [show dedupConsec (a :: b :: rest2) = dedupConsec (b :: rest2) by
          simp [dedupConsec, hab]]
        exact ih hrest
      · rw [show dedupConsec (a :: b :: rest2)
              = a :: dedupConsec (b :: rest2) by
          simp [dedupConsec, hab]]
        rw [List.sorted_cons]
        refine ⟨?_, ih hrest⟩
        intro x hx
        have hxm : x ∈ b :: rest2 := mem_of_mem_dedupConsec _ hx
        have hbx : b ≤ x := by
          rcases List.mem_cons.mp hxm with h1 | h2
          · exact h1 ▸ le_refl b
          · exact List.rel_of_sorted_cons hrest x h2
        have hab2 : a < b :=
          lt_of_le_of_ne (hall b (List.mem_cons_self b rest2)) hab
        exact lt_of_lt_of_le hab2 hbx

/-- C5: for every specification state, construct returns a sequence that
is strictly ascending by code point, hence free of duplicates. -/
theorem construct_sorted_nodup (s : CharsetSpec) :
    (construct s).Sorted (fun a b => a < b) ∧ (construct s).Nodup := by
  have h : (construct s).Sorted (fun a b => a < b) := by
    unfold construct sortChars
    exact sorted_lt_dedupConsec _ (List.sorted_insertionSort _ _)
  exact ⟨h, h.nodup⟩

/-- C7: the standard preset constructs an alphabet of exactly 64 distinct
characters and the printable preset one of exactly 95. -/
theorem preset_sizes :
    (construct CharsetSpec.std64).length = 64 ∧
    (construct CharsetSpec.printable_ascii).length = 95 := by
  constructor <;> rfl

/-- C10: removing names, in any number and order, never modifies the
additions list: subName only writes the seven boolean group flags. -/
theorem subName_preserves_additions (s : CharsetSpec)
    (names : List CharsetName) :
    (names.foldl subName s).additions = s.additions := by
  induction names generalizing s with
  | nil => rfl
  | cons n rest ih =>
    have hstep : (subName s n).additions = s.additions := by
      cases n <;> rfl
    simp [List.foldl, ih (subName s n), hstep]

/-- Helper for C4: the generation loop on a non-empty charset always
succeeds and yields a list of the requested length whose characters all
come from the charset. -/
theorem generateFrom_ok (charset : List Char) (rand : Nat → Nat)
    (h : charset ≠ []) :
    ∀ n i : Nat, ∃ l, generateFrom charset rand i n = some l ∧
      l.length = n ∧ ∀ c ∈ l, c ∈ charset := by
  intro n
  induction n with
  | zero => intro i; exact ⟨[], rfl, rfl, by simp⟩
  | succ n ih =>
    intro i
    obtain ⟨rest, hrest, hlen, hmem⟩ := ih (i + 1)
    have hpos : 0 < charset.length := List.length_pos.mpr h
    have hlt : rand i % charset.length < charset.length :=
      Nat.mod_lt _ hpos
    have hchoose : ∃ c, choose charset (rand i) = some c ∧ c ∈ charset := by
      unfold choose
      rcases hg : charset[rand i % charset.length]? with _ | c
      · rw [List.getElem?_eq_none_iff] at hg
        omega
      · exact ⟨c, rfl, List.getElem?_mem hg⟩
    obtain ⟨c, hc, hcm⟩ := hchoose
    refine ⟨c :: rest, ?_, by simp [hlen], ?_⟩
    · simp [generateFrom, hc, hrest]
    · intro x hx
      rcases List.mem_cons.mp hx with h1 | h2
      · exact h1 ▸ hcm
      · exact hmem x h2

/-- C4: on a non-empty alphabet, generate succeeds for every outcome of
the random source and returns exactly length characters, each an element
of the alphabet. -/
theorem generate_ok (g : PasswordGenerator) (rand : Nat → Nat)
    (h : g.charset ≠ []) :
    ∃ pw, generate g rand = some pw ∧ pw.length = g.length ∧
      ∀ c ∈ pw, c ∈ g.charset :=
  generateFrom_ok g.charset rand h g.length 0

/-- Witness for C4 at a two-character alphabet and length three. -/
theorem generate_ok_witness :
    (['a', 'b'] ≠ ([] : List Char)) ∧
    ∃ pw, generate { charset := ['a', 'b'], length := 3 } (fun i => i)
        = some pw ∧
      pw.length = 3 ∧ ∀ c ∈ pw, c ∈ ['a', 'b'] :=
  ⟨by decide,
   generate_ok { charset := ['a', 'b'], length := 3 } (fun i => i)
     (by decide)⟩

/-- Whether a character resolves to a charset name. -/
def isValidAbbrev (c : Char) : Bool :=
  match tryFromChar c with
  | Except.ok _ => true
  | Except.error _ => false

/-- When resolution fails, the error carries exactly the offending input
character. -/
theorem tryFromChar_error (c e : Char)
    (h : tryFromChar c = Except.error e) : e = c := by
  unfold tryFromChar at h
  split_ifs at h
  all_goals simp_all

/-- The valid abbreviations are exactly the nine symbols of the mapping
table. -/
theorem isValidAbbrev_iff (c : Char) :
    isValidAbbrev c = true
      ↔ c ∈ ['U', 'L', 'N', 'M', 'P', 'D', 'X', 'A', 'S'] := by
  unfold isValidAbbrev tryFromChar
  split_ifs <;> simp_all

/-- Helper for C6, generalized over the accumulated specification. -/
theorem fromStrAux_spec (s : List Char) :
    ∀ spec : CharsetSpec,
      ((∃ r, fromStrAux spec s = Except.ok r)
        ↔ ∀ c ∈ s, isValidAbbrev c = true) ∧
      (∀ e, fromStrAux spec s = Except.error e →
        s.find? (fun c => !isValidAbbrev c) = some e) := by
  induction s with
  | nil =>
    intro spec
    constructor
    · simp [fromStrAux]
    · intro e he
      simp [fromStrAux] at he
  | cons c rest ih =>
    intro spec
    cases htc : tryFromChar c with
    | ok name =>
      have hval : isValidAbbrev c = true := by simp [isValidAbbrev, htc]
      have hstep : fromStrAux spec (c :: rest)
          = fromStrAux (addName spec name) rest := by
        simp [fromStrAux, htc]
      obtain ⟨ih1, ih2⟩ := ih (addName spec name)
      constructor
      · rw [hstep, ih1]
        simp [hval]
      · intro e he
        rw [hstep] at he
        have hfind := ih2 e he
        simpa [List.find?_cons, hval] using hfind
    | error e0 =>
      have he0 : e0 = c := tryFromChar_error c e0 htc
      rw [he0] at htc
      have hval : isValidAbbrev c = false := by simp [isValidAbbrev, htc]
      have hstep : fromStrAux spec (c :: rest) = Except.error c := by
        simp [fromStrAux, htc]
      constructor
      · constructor
        · rintro ⟨r, hr⟩
          rw [hstep] at hr
          cases hr
        · intro hall
          have hc := hall c (List.mem_cons_self c rest)
          rw [hval] at hc
          cases hc
      · intro e he
        rw [hstep] at he
        injection he with h
        subst h
        simp [List.find?_cons, hval]

/-- C6: parsing succeeds iff every character of the input is one of the
nine abbreviation symbols; on failure the error carries the first
character outside that set, and no specification value is returned. -/
theorem fromStr_ok_iff (s : List Char) :
    ((∃ spec, fromStr s = Except.ok spec)
      ↔ ∀ c ∈ s, c ∈ ['U', 'L', 'N', 'M', 'P', 'D', 'X', 'A', 'S']) ∧
    (∀ e, fromStr s = Except.error e →
      s.find? (fun c => !isValidAbbrev c) = some e ∧
      e ∉ ['U', 'L', 'N', 'M', 'P', 'D', 'X', 'A', 'S']) := by
  obtain ⟨h1, h2⟩ := fromStrAux_spec s CharsetSpec.empty
  constructor
  · rw [show fromStr s = fromStrAux CharsetSpec.empty s from rfl, h1]
    constructor
    · intro hall c hc
      exact (isValidAbbrev_iff c).mp (hall c hc)
    · intro hall c hc
      exact (isValidAbbrev_iff c).mpr (hall c hc)
  · intro e he
    have hfind := h2 e he
    refine ⟨hfind, ?_⟩
    have hp := List.find?_some hfind
    intro hmem
    rw [show isValidAbbrev e = true from (isValidAbbrev_iff e).mpr hmem]
      at hp
    cases hp

/-- Witness for C6: on input UZ, parsing fails and reports Z, the first
character that is not an abbreviation symbol. -/
theorem fromStr_ok_iff_witness :
    List.find? (fun c => !isValidAbbrev c) ['U', 'Z'] = some 'Z' ∧
    'Z' ∉ ['U', 'L', 'N', 'M', 'P', 'D', 'X', 'A', 'S'] :=
  (fromStr_ok_iff ['U', 'Z']).2 'Z' rfl

/-- The seven group flags of a specification, as one tuple. -/
def flagsOf (s : CharsetSpec) :
    Bool × Bool × Bool × Bool × Bool × Bool × Bool :=
  (s.alpha_lower, s.alpha_upper, s.numeric, s.mathops, s.prose, s.delim,
   s.misc_special)

/-- Adding a string only appends its characters to the additions list. -/
theorem addStr_eq (cs : List Char) :
    ∀ s : CharsetSpec,
      addStr s cs = { s with additions := s.additions ++ cs } := by
  induction cs with
  | nil => intro s; simp [addStr]
  | cons c rest ih =>
    intro s
    have hstep : addStr s (c :: rest) = addStr (addChar s c) rest := rfl
    rw [hstep, ih (addChar s c)]
    simp [addChar]

/-- Adding two names commutes on the specification state itself. -/
theorem addName_comm (s : CharsetSpec) (n1 n2 : CharsetName) :
    addName (addName s n1) n2 = addName (addName s n2) n1 := by
  cases s
  cases n1 <;> cases n2 <;> rfl

/-- Adding a name and adding a character commute on the state itself. -/
theorem addName_addChar_comm (s : CharsetSpec) (n : CharsetName)
    (c : Char) :
    addChar (addName s n) c = addName (addChar s c) n := by
  cases s
  cases n <;> rfl

/-- Adding a name and adding a string commute on the state itself. -/
theorem addName_addStr_comm (s : CharsetSpec) (n : CharsetName)
    (cs : List Char) :
    addStr (addName s n) cs = addName (addStr s cs) n := by
  rw [addStr_eq, addStr_eq]
  cases s
  cases n <;> rfl

/-- Sorting maps permutation-equal inputs to the same output, because the
sorted output is a permutation of the input and sorted permutations of
one multiset coincide. -/
theorem sortChars_eq_of_perm {l1 l2 : List Char} (h : l1.Perm l2) :
    sortChars l1 = sortChars l2 := by
  have hp : (sortChars l1).Perm (sortChars l2) :=
    (List.perm_insertionSort _ l1).trans
      (h.trans (List.perm_insertionSort _ l2).symm)
  exact List.eq_of_perm_of_sorted hp
    (List.sorted_insertionSort _ l1) (List.sorted_insertionSort _ l2)

/-- The constructed alphabet depends only on the group flags and the
multiset of added characters. -/
theorem construct_eq_of_equiv {s t : CharsetSpec}
    (hf : flagsOf s = flagsOf t) (hp : s.additions.Perm t.additions) :
    construct s = construct t := by
  obtain ⟨h1, h2, h3, h4, h5, h6, h7⟩ :
      s.alpha_lower = t.alpha_lower ∧ s.alpha_upper = t.alpha_upper ∧
      s.numeric = t.numeric ∧ s.mathops = t.mathops ∧
      s.prose = t.prose ∧ s.delim = t.delim ∧
      s.misc_special = t.misc_special := by
    simpa [flagsOf, Prod.ext_iff] using hf
  have hperm :
      ((if s.alpha_lower then CHARSET_ALPHA_LOWER else [])
       ++ (if s.alpha_upper then CHARSET_ALPHA_UPPER else [])
       ++ (if s.numeric then CHARSET_NUMERIC else [])
       ++ (if s.mathops then CHARSET_MATHOPS else [])
       ++ (if s.prose then CHARSET_PROSE else [])
       ++ (if s.delim then CHARSET_DELIM else [])
       ++ (if s.misc_special then CHARSET_MISC_SPECIAL else [])
       ++ s.additions).Perm
      ((if t.alpha_lower then CHARSET_ALPHA_LOWER else [])
       ++ (if t.alpha_upper then CHARSET_ALPHA_UPPER else [])
       ++ (if t.numeric then CHARSET_NUMERIC else [])
       ++ (if t.mathops then CHARSET_MATHOPS else [])
       ++ (if t.prose then CHARSET_PROSE else [])
       ++ (if t.delim then CHARSET_DELIM else [])
       ++ (if t.misc_special then CHARSET_MISC_SPECIAL else [])
       ++ t.additions) := by
    rw [h1, h2, h3, h4, h5, h6, h7]
    exact hp.append_left _
  unfold construct
  rw [sortChars_eq_of_perm hperm]

/-- Adding two strings in either order yields the same constructed
alphabet: the additions lists are permutations of each other. -/
theorem construct_addStr_comm (s : CharsetSpec) (cs1 cs2 : List Char) :
    construct (addStr (addStr s cs1) cs2)
      = construct (addStr (addStr s cs2) cs1) := by
  rw [addStr_eq, addStr_eq, addStr_eq, addStr_eq]
  apply construct_eq_of_equiv
  · rfl
  · simp only [List.append_assoc]
    exact List.Perm.append_left _ List.perm_append_comm

/-- One add operation on a specification: by name, by single character,
or by string, matching the three AddAssign implementations. -/
inductive AddOp where
  | byName (n : CharsetName)
  | byChar (c : Char)
  | byStr (cs : List Char)

/-- Apply one add operation to a specification. -/
def applyAdd (s : CharsetSpec) : AddOp → CharsetSpec
  | AddOp.byName n => addName s n
  | AddOp.byChar c => addChar s c
  | AddOp.byStr cs => addStr s cs

/-- C8: any two add operations, applied to the same starting
specification in either order, construct the same alphabet. -/
theorem construct_applyAdd_comm (s : CharsetSpec) (op1 op2 : AddOp) :
    construct (applyAdd (applyAdd s op1) op2)
      = construct (applyAdd (applyAdd s op2) op1) := by
  have hchar : ∀ (u : CharsetSpec) (c : Char), addChar u c = addStr u [c] :=
    fun _ _ => rfl
  cases op1 with
  | byName n1 =>
    cases op2 with
    | byName n2 => simp only [applyAdd]; rw [addName_comm]
    | byChar c => simp only [applyAdd]; rw [addName_addChar_comm]
    | byStr cs => simp only [applyAdd]; rw [addName_addStr_comm]
  | byChar a =>
    cases op2 with
    | byName n2 => simp only [applyAdd]; rw [addName_addChar_comm]
    | byChar b =>
      simp only [applyAdd, hchar]
      exact construct_addStr_comm s [a] [b]
    | byStr cs =>
      simp only [applyAdd, hchar]
      exact construct_addStr_comm s [a] cs
  | byStr cs1 =>
    cases op2 with
    | byName n2 => simp only [applyAdd]; rw [addName_addStr_comm]
    | byChar c =>
      simp only [applyAdd, hchar]
      exact construct_addStr_comm s cs1 [c]
    | byStr cs2 =>
      simp only [applyAdd]
      exact construct_addStr_comm s cs1 cs2

end Yapg
